import Mathlib

/-!
Shallow embedding of harper-core's token layer (src/harper-core/src/token.rs
and src/harper-core/src/fat_token.rs) together with proofs about its
classification queries and its chunk/sentence/paragraph segmentation.

Token sequences (Rust slices `[Token]`) are embedded as `List Token`;
lazy iterators are embedded as the finite lists they produce; the panic in
`iter_linking_verb_indices` is embedded as an `Option` failure.
-/

namespace Harper

/-- A half-open character range `[start, end_)`; mirrors `Span` from the crate. -/
structure Span where
  start : Nat
  end_ : Nat
deriving DecidableEq

/-- Modelled from the spec: the linguistic payload carried by a word token.
The crate's word-metadata type is not among the provided sources; the spec
requires at minimum an is-linking-verb flag. -/
structure WordMetadata where
  linking_verb : Bool
deriving DecidableEq

/-- Modelled from the spec: the externally-defined `TokenKind` enumeration
(`crate::TokenKind` is outside the provided sources). Its variants are the
kinds the spec enumerates; `Word` carries its linguistic metadata inline. -/
inductive TokenKind where
  | Word (metadata : WordMetadata)
  | Punctuation
  | Space
  | Number
  | Quote
  | Currency
  | Apostrophe
  | Pipe
  | At
  | Ellipsis
  | Unlintable
  | SentenceTerminator
  | ParagraphBreak
  | ChunkTerminator
deriving DecidableEq

/-- Modelled from the spec: the black-box kind predicate `is_word`. -/
def TokenKind.is_word : TokenKind → Bool
  | .Word _ => true
  | _ => false

/-- Modelled from the spec: the black-box kind predicate `is_unlintable`. -/
def TokenKind.is_unlintable : TokenKind → Bool
  | .Unlintable => true
  | _ => false

/-- Modelled from the spec: the black-box kind predicate `is_chunk_terminator`. -/
def TokenKind.is_chunk_terminator : TokenKind → Bool
  | .ChunkTerminator => true
  | _ => false

/-- Modelled from the spec: the black-box kind predicate `is_sentence_terminator`. -/
def TokenKind.is_sentence_terminator : TokenKind → Bool
  | .SentenceTerminator => true
  | _ => false

/-- Modelled from the spec: the black-box kind predicate `is_paragraph_break`. -/
def TokenKind.is_paragraph_break : TokenKind → Bool
  | .ParagraphBreak => true
  | _ => false

/-- `Token` from token.rs: a `Span` paired with a `TokenKind`. -/
structure Token where
  span : Span
  kind : TokenKind
deriving DecidableEq

instance : Inhabited Token := ⟨⟨⟨0, 0⟩, TokenKind.Punctuation⟩⟩

/-- `Token::new` from token.rs. -/
def Token.new (span : Span) (kind : TokenKind) : Token := ⟨span, kind⟩

/-!
The `create_fns_for!` family from token.rs, with the per-kind predicate as an
explicit parameter `p`.  Each Rust method `first_word`, `last_space`, … is the
corresponding function below applied to that kind's predicate.
-/

/-- `first_$thing` from `create_fns_for!`: `self.iter().find(|v| v.kind.is_$thing())`. -/
def first_p (p : TokenKind → Bool) (s : List Token) : Option Token :=
  s.find? (fun v => p v.kind)

/-- `last_$thing` from `create_fns_for!`: `self.iter().rev().find(|v| v.kind.is_$thing())`. -/
def last_p (p : TokenKind → Bool) (s : List Token) : Option Token :=
  s.reverse.find? (fun v => p v.kind)

/-- `last_$thing_index` from `create_fns_for!`:
`self.iter().rev().position(pred).map(|i| self.len() - i - 1)`. -/
def last_p_index (p : TokenKind → Bool) (s : List Token) : Option Nat :=
  (s.reverse.findIdx? (fun v => p v.kind)).map (fun i => s.length - i - 1)

/-- `iter_$thing_indices` from `create_fns_for!`:
`self.iter().enumerate().filter(|(_, t)| pred(t)).map(|(i, _)| i)`. -/
def iter_p_indices (p : TokenKind → Bool) (s : List Token) : List Nat :=
  (s.enum.filter (fun it => p it.2.kind)).map Prod.fst

/-- `iter_$things` from `create_fns_for!`: `self.iter_$thing_indices().map(|i| self[i])`. -/
def iter_p (p : TokenKind → Bool) (s : List Token) : List Token :=
  (iter_p_indices p s).map (fun i => s.getD i default)

/-- `first_sentence_word` from token.rs. -/
def first_sentence_word (s : List Token) : Option Token :=
  match s.findIdx? (fun v => v.kind.is_word) with
  | none => none
  | some w_idx =>
    match s.findIdx? (fun v => v.kind.is_unlintable) with
    | none => some (s.getD w_idx default)
    | some u_idx =>
      if w_idx < u_idx then some (s.getD w_idx default) else none

/-- `span` from token.rs: `minmax` over the flattened list of each token's
span start and span end.  `minmax` of an empty iterator is `NoElements`, of a
one-element iterator is `OneElement`, and otherwise is `MinMax(min, max)`. -/
def span (s : List Token) : Option Span :=
  match s.flatMap (fun v => [v.span.start, v.span.end_]) with
  | [] => none
  | [m] => some ⟨m, m⟩
  | a :: b :: rest => some ⟨(b :: rest).foldl min a, (b :: rest).foldl max a⟩

/-- `Itertools::tuple_windows` specialised to pairs: consecutive pairs of a list. -/
def tuple_windows (l : List Nat) : List (Nat × Nat) :=
  l.zip l.tail

/-- The half-open sub-slice `s[a..b]` of a Rust slice. -/
def slice (s : List Token) (a b : Nat) : List Token :=
  (s.drop a).take (b - a)

/-- The boundary-inclusive splitting algorithm shared by `iter_chunks`,
`iter_sentences` and `iter_paragraphs` in token.rs, with the terminator
predicate as parameter: first unit `self[0..=first_term]`, middle units
`self[a+1..=b]` over `tuple_windows` of the terminator indices, and the
trailing unit `self[last_i+1..]` (or the whole slice when no terminator). -/
def iter_units (p : TokenKind → Bool) (s : List Token) : List (List Token) :=
  let first_unit := (iter_p_indices p s).head?.map (fun first_term => slice s 0 (first_term + 1))
  let rest := (tuple_windows (iter_p_indices p s)).map (fun ab => slice s (ab.1 + 1) (ab.2 + 1))
  let last := match last_p_index p s with
    | some last_i => if last_i + 1 < s.length then some (s.drop (last_i + 1)) else none
    | none => some s
  first_unit.toList ++ rest ++ last.toList

/-- `iter_chunks` from token.rs. -/
def iter_chunks (s : List Token) : List (List Token) :=
  iter_units TokenKind.is_chunk_terminator s

/-- `iter_sentences` from token.rs. -/
def iter_sentences (s : List Token) : List (List Token) :=
  iter_units TokenKind.is_sentence_terminator s

/-- `iter_paragraphs` from token.rs. -/
def iter_paragraphs (s : List Token) : List (List Token) :=
  iter_units TokenKind.is_paragraph_break s

/-- Whether a token's kind is `Word` with the linking-verb flag set; the
test `word.is_linking_verb()` applied after the `let TokenKind::Word(word)`
destructuring in token.rs. -/
def is_linking_verb_token (t : Token) : Bool :=
  match t.kind with
  | TokenKind.Word w => w.linking_verb
  | _ => false

/-- The filter inside `iter_linking_verb_indices` from token.rs, run over a
list of indices.  The `panic!("Should be unreachable.")` branch (a non-word
kind at a word index) is embedded as `none`. -/
def linking_verb_filter (s : List Token) : List Nat → Option (List Nat)
  | [] => some []
  | idx :: rest =>
    match (s.getD idx default).kind with
    | TokenKind.Word w =>
      match linking_verb_filter s rest with
      | some l => some (if w.linking_verb then idx :: l else l)
      | none => none
    | _ => none

/-- `iter_linking_verb_indices` from token.rs: filters `iter_word_indices`
down to linking verbs, panicking (here: `none`) on a non-word kind. -/
def iter_linking_verb_indices (s : List Token) : Option (List Nat) :=
  linking_verb_filter s (iter_p_indices TokenKind.is_word s)

/-- `iter_linking_verbs` from token.rs: `iter_linking_verb_indices().map(|idx| self[idx])`. -/
def iter_linking_verbs (s : List Token) : Option (List Token) :=
  (iter_linking_verb_indices s).map (fun l => l.map (fun i => s.getD i default))

/-- An ordinary word token, used to instantiate theorems on concrete input. -/
def tokWord : Token := ⟨⟨0, 3⟩, TokenKind.Word ⟨false⟩⟩

/-- A linking-verb word token, used to instantiate theorems on concrete input. -/
def tokLink : Token := ⟨⟨4, 6⟩, TokenKind.Word ⟨true⟩⟩

/-- A whitespace token, used to instantiate theorems on concrete input. -/
def tokSpace : Token := ⟨⟨3, 4⟩, TokenKind.Space⟩

/-- A chunk-terminator token, used to instantiate theorems on concrete input. -/
def tokComma : Token := ⟨⟨6, 7⟩, TokenKind.ChunkTerminator⟩

/-- An unlintable token, used to instantiate theorems on concrete input. -/
def tokCode : Token := ⟨⟨0, 2⟩, TokenKind.Unlintable⟩

/-!  Auxiliary lemmas about the embedded operations. -/

/-- `iter_p_indices` over `enumFrom k`, as a filtered range shifted by `k`. -/
theorem enumFrom_filter_map_eq (p : TokenKind → Bool) (s : List Token) (k : Nat) :
    ((s.enumFrom k).filter (fun it => p it.2.kind)).map Prod.fst
      = ((List.range s.length).filter (fun j => p ((s.getD j default).kind))).map (k + ·) := by
  induction s generalizing k with
  | nil => simp
  | cons t ts ih =>
    rw [List.enumFrom_cons, List.length_cons, List.range_succ_eq_map]
    have hcomp : ((fun j => p ((t :: ts).getD j default).kind) ∘ Nat.succ)
        = (fun j => p ((ts.getD j default).kind)) := by
      funext j
      simp
    have hshift : ((fun x => k + x) ∘ Nat.succ) = (fun x => (k + 1) + x) := by
      funext x
      simp only [Function.comp_apply]
      omega
    by_cases hp : p t.kind
    · simp only [List.filter_cons, List.getD_cons_zero, hp, if_true, List.filter_map,
        List.map_cons, List.map_map, hcomp, hshift]
      rw [ih (k + 1)]
      simp
    · simp only [List.filter_cons, List.getD_cons_zero, hp, Bool.false_eq_true, if_false,
        List.filter_map, List.map_map, hcomp, hshift]
      rw [ih (k + 1)]

/-- `iter_p_indices` is the filtered range of positions whose token satisfies `p`. -/
theorem iter_p_indices_eq (p : TokenKind → Bool) (s : List Token) :
    iter_p_indices p s
      = (List.range s.length).filter (fun j => p ((s.getD j default).kind)) := by
  have h := enumFrom_filter_map_eq p s 0
  simpa [iter_p_indices, List.enum] using h

/-- Membership in `iter_p_indices`. -/
theorem mem_iter_p_indices {p : TokenKind → Bool} {s : List Token} {i : Nat} :
    i ∈ iter_p_indices p s ↔ i < s.length ∧ p ((s.getD i default).kind) := by
  rw [iter_p_indices_eq]
  simp [List.mem_filter, List.mem_range]

/-- The indices produced by `iter_p_indices` are strictly increasing. -/
theorem pairwise_iter_p_indices (p : TokenKind → Bool) (s : List Token) :
    (iter_p_indices p s).Pairwise (· < ·) := by
  rw [iter_p_indices_eq]
  exact List.Pairwise.sublist (List.filter_sublist _) (List.pairwise_lt_range _)

/-- Reversal exchanges position `i` for position `length - 1 - i`, stated for `getD`. -/
theorem getD_reverse_eq {s : List Token} {i : Nat} (h : i < s.length) :
    s.reverse.getD i default = s.getD (s.length - 1 - i) default := by
  rw [List.getD_eq_getElem _ _ (by simpa using h), List.getD_eq_getElem _ _ (by omega)]
  exact List.getElem_reverse (by simpa using h)

/-- `last_p_index` returns `some j` exactly when `j` is the last matching position. -/
theorem last_p_index_eq_some_iff {p : TokenKind → Bool} {s : List Token} {j : Nat} :
    last_p_index p s = some j ↔
      j < s.length ∧ p ((s.getD j default).kind)
        ∧ ∀ i, j < i → i < s.length → ¬ p ((s.getD i default).kind) := by
  unfold last_p_index
  rw [Option.map_eq_some']
  constructor
  · rintro ⟨i, hfind, rfl⟩
    rw [List.findIdx?_eq_some_iff_getElem] at hfind
    obtain ⟨hi, hpi, hbefore⟩ := hfind
    have hi' : i < s.length := by simpa using hi
    refine ⟨by omega, ?_, ?_⟩
    · have : s.reverse.getD i default = s.getD (s.length - 1 - i) default :=
        getD_reverse_eq hi'
      rw [List.getD_eq_getElem _ _ hi] at this
      have harith : s.length - 1 - i = s.length - i - 1 := by omega
      rw [harith] at this
      rw [← this]
      exact hpi
    · intro i' hgt hlt
      have hj' : s.length - 1 - i' < i := by omega
      have := hbefore (s.length - 1 - i') hj'
      have hrw : s.reverse.getD (s.length - 1 - i') default = s.getD i' default := by
        rw [getD_reverse_eq (by omega)]
        congr 1
        omega
      rw [List.getD_eq_getElem _ _ (by simpa using (by omega : s.length - 1 - i' < s.length))] at hrw
      intro hcontra
      apply this
      rw [hrw]
      exact hcontra
  · rintro ⟨hj, hpj, hafter⟩
    refine ⟨s.length - 1 - j, ?_, by omega⟩
    rw [List.findIdx?_eq_some_iff_getElem]
    have hlen : s.length - 1 - j < s.reverse.length := by
      simp only [List.length_reverse]
      omega
    refine ⟨hlen, ?_, ?_⟩
    · have hrw : s.reverse.getD (s.length - 1 - j) default = s.getD j default := by
        rw [getD_reverse_eq (by omega)]
        congr 1
        omega
      rw [List.getD_eq_getElem _ _ hlen] at hrw
      rw [hrw]
      exact hpj
    · intro j' hj'
      have hlt : j' < s.reverse.length := by
        simp only [List.length_reverse]
        omega
      have hrw : s.reverse.getD j' default = s.getD (s.length - 1 - j') default :=
        getD_reverse_eq (by simpa using hlt)
      rw [List.getD_eq_getElem _ _ hlt] at hrw
      rw [hrw]
      have := hafter (s.length - 1 - j') (by omega) (by omega)
      simpa using this

/-- `last_p_index` returns `none` exactly when no token matches. -/
theorem last_p_index_eq_none_iff {p : TokenKind → Bool} {s : List Token} :
    last_p_index p s = none ↔ ∀ t ∈ s, ¬ p t.kind := by
  unfold last_p_index
  rw [Option.map_eq_none', List.findIdx?_eq_none_iff]
  simp

/-- In a strictly increasing list every member is at most the last element. -/
theorem le_getLast_of_pairwise :
    ∀ {l : List Nat}, l.Pairwise (· < ·) → ∀ {j}, l.getLast? = some j → ∀ x ∈ l, x ≤ j := by
  intro l
  induction l with
  | nil =>
    intro _ j h
    simp at h
  | cons a t ih =>
    intro hp j hlast x hx
    cases t with
    | nil =>
      simp at hlast hx
      omega
    | cons b t' =>
      rw [List.getLast?_cons_cons] at hlast
      have hj : j ∈ b :: t' := List.mem_of_mem_getLast? (Option.mem_def.mpr hlast)
      rcases List.mem_cons.mp hx with rfl | hx'
      · have := (List.pairwise_cons.mp hp).1 j hj
        omega
      · exact ih (List.pairwise_cons.mp hp).2 hlast x hx'

/-- `getLast?` of a nonempty list, through `getLastD`. -/
theorem getLast?_cons_eq_getLastD (a : Nat) (l : List Nat) :
    (a :: l).getLast? = some (l.getLastD a) := by
  induction l generalizing a with
  | nil => rfl
  | cons b t ih =>
    rw [List.getLast?_cons_cons, ih b, List.getLastD_cons]

/-- `last_p_index` agrees with the last element of `iter_p_indices`. -/
theorem last_p_index_eq_getLast? (p : TokenKind → Bool) (s : List Token) :
    last_p_index p s = (iter_p_indices p s).getLast? := by
  cases hl : (iter_p_indices p s).getLast? with
  | none =>
    rw [List.getLast?_eq_none_iff] at hl
    rw [last_p_index_eq_none_iff]
    intro t ht hcontra
    obtain ⟨n, hn, rfl⟩ := List.mem_iff_getElem.mp ht
    have hmem : n ∈ iter_p_indices p s := by
      refine mem_iter_p_indices.mpr ⟨hn, ?_⟩
      rw [List.getD_eq_getElem _ _ hn]
      exact hcontra
    rw [hl] at hmem
    simp at hmem
  | some j =>
    have hmem : j ∈ iter_p_indices p s := List.mem_of_mem_getLast? (Option.mem_def.mpr hl)
    obtain ⟨hj, hpj⟩ := mem_iter_p_indices.mp hmem
    rw [last_p_index_eq_some_iff]
    refine ⟨hj, hpj, ?_⟩
    intro i hgt hlt hpi
    have hi : i ∈ iter_p_indices p s := mem_iter_p_indices.mpr ⟨hlt, hpi⟩
    have hle := le_getLast_of_pairwise (pairwise_iter_p_indices p s) hl i hi
    omega

/-- Rewriting a middle-unit slice: its endpoints differ by the gap of the window. -/
theorem slice_succ_eq (s : List Token) {a b : Nat} (hab : a ≤ b) :
    slice s (a + 1) (b + 1) = (s.drop (a + 1)).take (b - a) := by
  unfold slice
  congr 1
  omega

/-- A middle unit followed by the rest of the sequence restores the tail. -/
theorem slice_append_drop (s : List Token) {a b : Nat} (hab : a ≤ b) :
    slice s (a + 1) (b + 1) ++ s.drop (b + 1) = s.drop (a + 1) := by
  rw [slice_succ_eq s hab]
  have h2 : (s.drop (a + 1)).drop (b - a) = s.drop (b + 1) := by
    rw [List.drop_drop]
    congr 1
    omega
  rw [← h2, List.take_append_drop]

/-- Concatenating the middle units and the trailing unit restores `s.drop (a + 1)`,
for any ascending in-range boundary list headed by `a`. -/
theorem join_helper (s : List Token) (bs : List Nat) : ∀ (a : Nat), a < s.length →
    bs.Pairwise (· < ·) → (∀ x ∈ bs, a < x ∧ x < s.length) →
    (((a :: bs).zip bs).map (fun ab => slice s (ab.1 + 1) (ab.2 + 1))).flatten
      ++ (if bs.getLastD a + 1 < s.length then s.drop (bs.getLastD a + 1) else [])
      = s.drop (a + 1) := by
  induction bs with
  | nil =>
    intro a ha _ _
    simp only [List.zip_nil_right, List.map_nil, List.flatten_nil, List.nil_append,
      List.getLastD_nil]
    split
    · rfl
    · rw [eq_comm, List.drop_eq_nil_iff]
      omega
  | cons b bs' ih =>
    intro a ha hpw hbnd
    have hab : a < b := (hbnd b (List.mem_cons_self _ _)).1
    have hb : b < s.length := (hbnd b (List.mem_cons_self _ _)).2
    rw [List.zip_cons_cons, List.map_cons, List.flatten_cons, List.getLastD_cons,
      List.append_assoc]
    rw [ih b hb (List.pairwise_cons.mp hpw).2
      (fun x hx => ⟨(List.pairwise_cons.mp hpw).1 x hx, (hbnd x (List.mem_cons_of_mem b hx)).2⟩)]
    exact slice_append_drop s (Nat.le_of_lt hab)

/-- The first unit of the segmentation is an initial segment. -/
theorem slice_zero_eq_take (s : List Token) (b : Nat) :
    slice s 0 (b + 1) = s.take (b + 1) := by
  simp [slice]

/-- Partition completeness of the generic splitting algorithm: the emitted
units concatenate back to the input sequence. -/
theorem iter_units_flatten (p : TokenKind → Bool) (s : List Token) :
    (iter_units p s).flatten = s := by
  unfold iter_units
  cases hidx : iter_p_indices p s with
  | nil =>
    have hlast : last_p_index p s = none := by
      rw [last_p_index_eq_getLast?, hidx]
      rfl
    simp [hlast, tuple_windows, hidx]
  | cons b0 rest =>
    have hpw := pairwise_iter_p_indices p s
    rw [hidx] at hpw
    have hmem : ∀ x ∈ b0 :: rest, x < s.length := by
      intro x hx
      have hx' : x ∈ iter_p_indices p s := by
        rw [hidx]
        exact hx
      exact (mem_iter_p_indices.mp hx').1
    have hb0 : b0 < s.length := hmem b0 (List.mem_cons_self _ _)
    have hlast : last_p_index p s = some (rest.getLastD b0) := by
      rw [last_p_index_eq_getLast?, hidx, getLast?_cons_eq_getLastD]
    rw [hlast]
    simp only [tuple_windows, List.tail_cons, List.head?_cons, Option.map_some',
      Option.toList_some, List.cons_append, List.nil_append, List.flatten_cons,
      slice_zero_eq_take]
    have hjh := join_helper s rest b0 hb0 (List.pairwise_cons.mp hpw).2
      (fun x hx => ⟨(List.pairwise_cons.mp hpw).1 x hx, hmem x (List.mem_cons_of_mem b0 hx)⟩)
    have htoList :
        (if rest.getLastD b0 + 1 < s.length
            then some (s.drop (rest.getLastD b0 + 1)) else none).toList
          = (if rest.getLastD b0 + 1 < s.length
              then [s.drop (rest.getLastD b0 + 1)] else ([] : List (List Token))) := by
      split <;> rfl
    have hfl : (if rest.getLastD b0 + 1 < s.length
        then [s.drop (rest.getLastD b0 + 1)] else ([] : List (List Token))).flatten
          = (if rest.getLastD b0 + 1 < s.length then s.drop (rest.getLastD b0 + 1) else []) := by
      split <;> simp
    rw [htoList, List.flatten_append, hfl, hjh, List.take_append_drop]

/-- `getD` through `take`. -/
theorem getD_take_eq {s : List Token} {m j : Nat} (h : j < (s.take m).length) :
    (s.take m).getD j default = s.getD j default := by
  have hj : j < s.length := by
    simp at h
    omega
  rw [List.getD_eq_getElem _ _ h, List.getD_eq_getElem _ _ hj]
  exact List.getElem_take s

/-- `getD` through `drop`. -/
theorem getD_drop_eq {s : List Token} {a j : Nat} (h : j < (s.drop a).length) :
    (s.drop a).getD j default = s.getD (a + j) default := by
  have hj : a + j < s.length := by
    simp at h
    omega
  rw [List.getD_eq_getElem _ _ h, List.getD_eq_getElem _ _ hj]
  exact List.getElem_drop s

/-- A pair drawn from `l.zip l.tail` consists of two adjacent elements of `l`. -/
theorem mem_zip_tail {l : List Nat} {a b : Nat} (h : (a, b) ∈ l.zip l.tail) :
    ∃ i, ∃ hi : i + 1 < l.length,
      l.getD i 0 = a ∧ l.getD (i + 1) 0 = b := by
  obtain ⟨k, hk, heq⟩ := List.mem_iff_getElem.mp h
  have hk2 : k < l.length ∧ k + 1 < l.length := by
    simp only [List.length_zip, List.length_tail] at hk
    omega
  refine ⟨k, hk2.2, ?_, ?_⟩
  · rw [List.getD_eq_getElem _ _ hk2.1]
    rw [List.getElem_zip] at heq
    exact congrArg Prod.fst heq
  · rw [List.getD_eq_getElem _ _ hk2.2]
    rw [List.getElem_zip] at heq
    have := congrArg Prod.snd heq
    simpa [List.getElem_tail] using this

/-- Strict monotonicity of indexing into a strictly sorted list, stated for `getD`. -/
theorem pairwise_getD_lt {l : List Nat} (hp : l.Pairwise (· < ·)) {i j : Nat}
    (hij : i < j) (hj : j < l.length) : l.getD i 0 < l.getD j 0 := by
  rw [List.getD_eq_getElem _ _ (by omega), List.getD_eq_getElem _ _ hj]
  exact List.pairwise_iff_getElem.mp hp i j (by omega) hj hij

/-- If `x` sits strictly between two adjacent elements of a strictly sorted list,
`x` is not a member. -/
theorem not_mem_between {l : List Nat} (hp : l.Pairwise (· < ·)) {i : Nat}
    (hi : i + 1 < l.length) {x : Nat} (h1 : l.getD i 0 < x) (h2 : x < l.getD (i + 1) 0) :
    x ∉ l := by
  intro hx
  obtain ⟨m, hm, heq⟩ := List.mem_iff_getElem.mp hx
  have hxg : l.getD m 0 = x := by
    rw [List.getD_eq_getElem _ _ hm]
    exact heq
  rcases Nat.lt_trichotomy m (i + 1) with hlt | heqm | hgt
  · rcases Nat.lt_or_ge m i with hlt' | hge
    · have := pairwise_getD_lt hp hlt' (by omega)
      omega
    · have hmi : m = i := by omega
      subst hmi
      omega
  · subst heqm
    omega
  · have := pairwise_getD_lt hp hgt hm
    omega

/-- An in-range `getD` is a member, for index lists. -/
theorem getD_mem_nat {l : List Nat} {i : Nat} (h : i < l.length) : l.getD i 0 ∈ l := by
  rw [List.getD_eq_getElem _ _ h]
  exact List.getElem_mem h

/-- An in-range `getD` is a member, for token lists. -/
theorem getD_mem_tok {s : List Token} {i : Nat} (h : i < s.length) : s.getD i default ∈ s := by
  rw [List.getD_eq_getElem _ _ h]
  exact List.getElem_mem h

/-- In every unit emitted by the splitting algorithm, a token satisfying the
terminator predicate can only sit at the unit's final position. -/
theorem iter_units_term_last (p : TokenKind → Bool) (s : List Token) :
    ∀ u ∈ iter_units p s, ∀ j, j < u.length →
      p ((u.getD j default).kind) → j + 1 = u.length := by
  intro u hu j hj hpj
  unfold iter_units at hu
  rw [List.append_assoc, List.mem_append, List.mem_append] at hu
  rcases hu with hu | hu | hu
  · -- the first unit
    rcases hhead : (iter_p_indices p s).head? with _ | b0
    · rw [hhead] at hu
      simp at hu
    · rw [hhead] at hu
      simp only [Option.map_some', Option.toList_some, List.mem_singleton] at hu
      subst hu
      obtain ⟨ys, hys⟩ := List.head?_eq_some_iff.mp hhead
      have hb0 : b0 < s.length := by
        have : b0 ∈ iter_p_indices p s := by
          rw [hys]
          exact List.mem_cons_self _ _
        exact (mem_iter_p_indices.mp this).1
      rw [slice_zero_eq_take] at hj hpj ⊢
      have hlen : (s.take (b0 + 1)).length = b0 + 1 := by
        simp
        omega
      by_contra hne
      have hjb : j < b0 := by omega
      rw [getD_take_eq (by omega)] at hpj
      have hjmem : j ∈ iter_p_indices p s := mem_iter_p_indices.mpr ⟨by omega, hpj⟩
      rw [hys] at hjmem
      have hpw := pairwise_iter_p_indices p s
      rw [hys] at hpw
      rcases List.mem_cons.mp hjmem with rfl | hjmem'
      · omega
      · have := (List.pairwise_cons.mp hpw).1 j hjmem'
        omega
  · -- a middle unit
    obtain ⟨ab, hab, habu⟩ := List.mem_map.mp hu
    obtain ⟨a, b⟩ := ab
    obtain ⟨i, hi, hia, hib⟩ := mem_zip_tail hab
    have hpw := pairwise_iter_p_indices p s
    have hamem : a ∈ iter_p_indices p s := by
      rw [← hia]
      exact getD_mem_nat (by omega)
    have hbmem : b ∈ iter_p_indices p s := by
      rw [← hib]
      exact getD_mem_nat hi
    have hab' : a < b := by
      have hmono := pairwise_getD_lt hpw (show i < i + 1 by omega) hi
      rw [hia, hib] at hmono
      exact hmono
    have hbn : b < s.length := (mem_iter_p_indices.mp hbmem).1
    subst habu
    rw [slice_succ_eq s (Nat.le_of_lt hab')] at hj hpj ⊢
    have hulen : ((s.drop (a + 1)).take (b - a)).length = b - a := by
      simp only [List.length_take, List.length_drop]
      omega
    rw [hulen] at hj ⊢
    by_contra hne
    have hjb : j + 1 < b - a := by omega
    rw [getD_take_eq (by rw [hulen]; omega),
      getD_drop_eq (by simp only [List.length_drop]; omega)] at hpj
    have hxmem : (a + 1 + j) ∈ iter_p_indices p s :=
      mem_iter_p_indices.mpr ⟨by omega, hpj⟩
    have := not_mem_between hpw hi (x := a + 1 + j) (by omega) (by omega)
    exact this hxmem
  · -- the trailing unit
    rcases hlast : last_p_index p s with _ | l_i
    · rw [hlast] at hu
      simp only [Option.toList_some, List.mem_singleton] at hu
      subst hu
      have hnone := last_p_index_eq_none_iff.mp hlast
      exact absurd hpj (hnone _ (getD_mem_tok hj))
    · rw [hlast] at hu
      obtain ⟨hl, hpl, hafter⟩ := last_p_index_eq_some_iff.mp hlast
      have hu' : u ∈ (if l_i + 1 < s.length
          then some (s.drop (l_i + 1)) else none).toList := hu
      by_cases hcut : l_i + 1 < s.length
      · rw [if_pos hcut] at hu'
        simp only [Option.toList_some, List.mem_singleton] at hu'
        subst hu'
        rw [getD_drop_eq hj] at hpj
        have hjlen : l_i + 1 + j < s.length := by
          simp at hj
          omega
        exact absurd hpj (hafter _ (by omega) hjlen)
      · rw [if_neg hcut] at hu'
        simp at hu'

/-- With no matching token, `iter_p_indices` is empty. -/
theorem iter_p_indices_eq_nil {p : TokenKind → Bool} {s : List Token}
    (h : ∀ t ∈ s, ¬ p t.kind) : iter_p_indices p s = [] := by
  rw [List.eq_nil_iff_forall_not_mem]
  intro i hi
  obtain ⟨hlt, hp⟩ := mem_iter_p_indices.mp hi
  exact h _ (getD_mem_tok hlt) hp

/-- With no terminator token present, the splitting algorithm emits the whole
sequence as its sole unit. -/
theorem iter_units_no_term (p : TokenKind → Bool) (s : List Token)
    (h : ∀ t ∈ s, ¬ p t.kind) : iter_units p s = [s] := by
  have hidx := iter_p_indices_eq_nil h
  have hlast : last_p_index p s = none := last_p_index_eq_none_iff.mpr h
  unfold iter_units
  rw [hidx, hlast]
  rfl

/-- `getD` through an append, left side. -/
theorem getD_append_of_lt {α : Type} {l1 l2 : List α} {d : α} {i : Nat}
    (h : i < l1.length) : (l1 ++ l2).getD i d = l1.getD i d := by
  rw [List.getD_eq_getElem _ _ (by simp only [List.length_append]; omega),
    List.getD_eq_getElem _ _ h]
  exact List.getElem_append_left h

/-- A one-token slice. -/
theorem slice_singleton {s : List Token} {a : Nat} (h : a + 1 < s.length) :
    slice s (a + 1) (a + 2) = [s.getD (a + 1) default] := by
  unfold slice
  have h2 : a + 2 - (a + 1) = 1 := by omega
  rw [h2, List.drop_eq_getElem_cons (by omega), List.take_succ_cons, List.take_zero,
    List.getD_eq_getElem _ _ (by omega : a + 1 < s.length)]

/-- The last element of a nonempty in-range slice. -/
theorem slice_getLast? {s : List Token} {a b : Nat} (hab : a < b) (hb : b ≤ s.length) :
    (slice s a b).getLast? = some (s.getD (b - 1) default) := by
  unfold slice
  have hlen : ((s.drop a).take (b - a)).length = b - a := by
    simp only [List.length_take, List.length_drop]
    omega
  rw [List.getLast?_eq_getElem?, hlen,
    List.getElem?_eq_getElem (by rw [hlen]; omega)]
  congr 1
  rw [← List.getD_eq_getElem ((s.drop a).take (b - a)) default (by rw [hlen]; omega),
    getD_take_eq (by rw [hlen]; omega), getD_drop_eq (by simp only [List.length_drop]; omega)]
  congr 1
  omega

/-- `getD` of the windows-map at a position, in terms of the index list. -/
theorem zip_tail_map_getD {l : List Nat} {m : Nat} (hm : m + 1 < l.length)
    (f : Nat × Nat → List Token) :
    ((l.zip l.tail).map f).getD m [] = f (l.getD m 0, l.getD (m + 1) 0) := by
  have hmz : m < ((l.zip l.tail).map f).length := by
    simp only [List.length_map, List.length_zip, List.length_tail]
    omega
  rw [List.getD_eq_getElem _ _ hmz, List.getElem_map]
  congr 1
  rw [List.getElem_zip]
  refine Prod.ext ?_ ?_
  · simp only
    rw [List.getD_eq_getElem _ _ (by omega)]
  · simp only
    rw [List.getElem_tail, List.getD_eq_getElem _ _ hm]

/-- Two numbers `a` and `a + 1` both present in a strictly sorted list occupy
adjacent positions. -/
theorem adjacent_in_sorted {l : List Nat} (hp : l.Pairwise (· < ·)) {a : Nat}
    (ha : a ∈ l) (ha1 : a + 1 ∈ l) :
    ∃ m, m + 1 < l.length ∧ l.getD m 0 = a ∧ l.getD (m + 1) 0 = a + 1 := by
  obtain ⟨m, hm, hma⟩ := List.mem_iff_getElem.mp ha
  obtain ⟨m', hm', hma'⟩ := List.mem_iff_getElem.mp ha1
  have hgda : l.getD m 0 = a := by
    rw [List.getD_eq_getElem _ _ hm]
    exact hma
  have hgda' : l.getD m' 0 = a + 1 := by
    rw [List.getD_eq_getElem _ _ hm']
    exact hma'
  have hlt : m < m' := by
    by_contra hge
    rcases Nat.eq_or_lt_of_le (Nat.le_of_not_lt hge) with heq | hlt'
    · rw [heq] at hgda'
      omega
    · have := pairwise_getD_lt hp hlt' hm
      omega
  have hm1 : m' = m + 1 := by
    by_contra hne
    have hmid : m + 1 < m' := by omega
    have h1 := pairwise_getD_lt hp (show m < m + 1 by omega) (by omega)
    have h2 := pairwise_getD_lt hp hmid hm'
    omega
  subst hm1
  exact ⟨m, hm', hgda, hgda'⟩

/-- Consecutive adjacent terminators: the second terminator is emitted as a
single-token unit immediately after the unit that the first terminator closes. -/
theorem iter_units_adjacent (p : TokenKind → Bool) (s : List Token) {a : Nat}
    (h1 : a + 1 < s.length) (hpa : p ((s.getD a default).kind))
    (hpa1 : p ((s.getD (a + 1) default).kind)) :
    ∃ k, 1 ≤ k ∧ k < (iter_units p s).length ∧
      (iter_units p s).getD k [] = [s.getD (a + 1) default] ∧
      ((iter_units p s).getD (k - 1) []).getLast? = some (s.getD a default) := by
  have hpw := pairwise_iter_p_indices p s
  have hamem : a ∈ iter_p_indices p s := mem_iter_p_indices.mpr ⟨by omega, hpa⟩
  have ha1mem : a + 1 ∈ iter_p_indices p s := mem_iter_p_indices.mpr ⟨h1, hpa1⟩
  obtain ⟨m, hm, hgda, hgda1⟩ := adjacent_in_sorted hpw hamem ha1mem
  cases hidx : iter_p_indices p s with
  | nil =>
    rw [hidx] at hamem
    simp at hamem
  | cons b0 rest =>
    rw [hidx] at hpw hm hgda hgda1
    have hrest : rest.length + 1 = (b0 :: rest).length := by simp
    have hmids : (tuple_windows (b0 :: rest)).length = rest.length := by
      simp [tuple_windows, List.length_zip]
    refine ⟨m + 1, by omega, ?_, ?_, ?_⟩
    · unfold iter_units
      rw [hidx]
      simp only [List.length_append, List.head?_cons, Option.map_some', Option.toList_some,
        List.length_cons, List.length_map, hmids]
      omega
    · unfold iter_units
      rw [hidx]
      simp only [List.head?_cons, Option.map_some', Option.toList_some, List.cons_append,
        List.nil_append, List.getD_cons_succ]
      rw [getD_append_of_lt (by simp only [List.length_map, tuple_windows] at *; omega)]
      rw [show tuple_windows (b0 :: rest) = (b0 :: rest).zip (b0 :: rest).tail from rfl]
      rw [zip_tail_map_getD (by simpa using hm)]
      simp only [hgda, hgda1]
      exact slice_singleton h1
    · unfold iter_units
      rw [hidx]
      simp only [List.head?_cons, Option.map_some', Option.toList_some, List.cons_append,
        List.nil_append, Nat.add_sub_cancel]
      cases m with
      | zero =>
        rw [List.getD_cons_zero]
        have hb0 : b0 = a := by simpa using hgda
        subst hb0
        rw [slice_zero_eq_take,
          show s.take (b0 + 1) = slice s 0 (b0 + 1) from (slice_zero_eq_take s b0).symm,
          slice_getLast? (by omega) (by omega)]
        simp
      | succ m' =>
        rw [List.getD_cons_succ]
        rw [getD_append_of_lt (by simp only [List.length_map, tuple_windows] at *; omega)]
        rw [show tuple_windows (b0 :: rest) = (b0 :: rest).zip (b0 :: rest).tail from rfl]
        rw [zip_tail_map_getD (by simp at hm ⊢; omega)]
        have hlt : (b0 :: rest).getD m' 0 < (b0 :: rest).getD (m' + 1) 0 :=
          pairwise_getD_lt hpw (by omega) (by simp at hm ⊢; omega)
        rw [hgda]
        rw [slice_getLast? (by omega) (by omega)]
        simp

/-- `find?` is `findIdx?` followed by indexing. -/
theorem find?_eq_findIdx?_getD (f : Token → Bool) (l : List Token) :
    l.find? f = (l.findIdx? f).map (fun i => l.getD i default) := by
  induction l with
  | nil => rfl
  | cons t ts ih =>
    by_cases hf : f t
    · rw [List.find?_cons_of_pos _ hf, List.findIdx?_cons, if_pos hf]
      rfl
    · rw [List.find?_cons_of_neg _ hf, List.findIdx?_cons, if_neg hf, List.findIdx?_succ, ih]
      rcases ts.findIdx? f with _ | i
      · rfl
      · simp

/-- The head of `iter_p_indices` is the first matching position. -/
theorem findIdx?_eq_head_iter_p_indices (p : TokenKind → Bool) (s : List Token) :
    s.findIdx? (fun v => p v.kind) = (iter_p_indices p s).head? := by
  cases hh : (iter_p_indices p s).head? with
  | none =>
    rw [List.head?_eq_none_iff] at hh
    rw [List.findIdx?_eq_none_iff]
    intro x hx
    by_contra hpx
    obtain ⟨n, hn, rfl⟩ := List.mem_iff_getElem.mp hx
    have : n ∈ iter_p_indices p s := by
      refine mem_iter_p_indices.mpr ⟨hn, ?_⟩
      rw [List.getD_eq_getElem _ _ hn]
      simpa using hpx
    rw [hh] at this
    simp at this
  | some b0 =>
    obtain ⟨ys, hys⟩ := List.head?_eq_some_iff.mp hh
    have hpw := pairwise_iter_p_indices p s
    rw [hys] at hpw
    have hmem : b0 ∈ iter_p_indices p s := by
      rw [hys]
      exact List.mem_cons_self _ _
    obtain ⟨hb0, hpb0⟩ := mem_iter_p_indices.mp hmem
    rw [List.findIdx?_eq_some_iff_getElem]
    refine ⟨hb0, by rw [← List.getD_eq_getElem _ _ hb0]; simpa using hpb0, ?_⟩
    intro j hj
    by_contra hpj
    have hjmem : j ∈ iter_p_indices p s := by
      refine mem_iter_p_indices.mpr ⟨by omega, ?_⟩
      rw [List.getD_eq_getElem _ _ (by omega)]
      simpa using hpj
    rw [hys] at hjmem
    rcases List.mem_cons.mp hjmem with rfl | hjm
    · omega
    · have := (List.pairwise_cons.mp hpw).1 j hjm
      omega

/-- On a list of positions that all hold word-kind tokens, the linking-verb
filter never hits its panic branch and computes an ordinary filter. -/
theorem linking_verb_filter_words {s : List Token} : ∀ {l : List Nat},
    (∀ i ∈ l, TokenKind.is_word ((s.getD i default).kind)) →
    linking_verb_filter s l
      = some (l.filter (fun i => is_linking_verb_token (s.getD i default))) := by
  intro l
  induction l with
  | nil => intro _; rfl
  | cons idx rest ih =>
    intro h
    have hw := h idx (List.mem_cons_self _ _)
    cases hk : (s.getD idx default).kind with
    | Word w =>
      rw [show linking_verb_filter s (idx :: rest)
          = (match (s.getD idx default).kind with
            | TokenKind.Word w =>
              (match linking_verb_filter s rest with
              | some l => some (if w.linking_verb then idx :: l else l)
              | none => none)
            | _ => none) from rfl]
      rw [hk, ih (fun i hi => h i (List.mem_cons_of_mem _ hi))]
      rw [List.filter_cons]
      have hlv : is_linking_verb_token (s.getD idx default) = w.linking_verb := by
        unfold is_linking_verb_token
        rw [hk]
      rw [hlv]
    | Punctuation => rw [hk] at hw; simp [TokenKind.is_word] at hw
    | Space => rw [hk] at hw; simp [TokenKind.is_word] at hw
    | Number => rw [hk] at hw; simp [TokenKind.is_word] at hw
    | Quote => rw [hk] at hw; simp [TokenKind.is_word] at hw
    | Currency => rw [hk] at hw; simp [TokenKind.is_word] at hw
    | Apostrophe => rw [hk] at hw; simp [TokenKind.is_word] at hw
    | Pipe => rw [hk] at hw; simp [TokenKind.is_word] at hw
    | At => rw [hk] at hw; simp [TokenKind.is_word] at hw
    | Ellipsis => rw [hk] at hw; simp [TokenKind.is_word] at hw
    | Unlintable => rw [hk] at hw; simp [TokenKind.is_word] at hw
    | SentenceTerminator => rw [hk] at hw; simp [TokenKind.is_word] at hw
    | ParagraphBreak => rw [hk] at hw; simp [TokenKind.is_word] at hw
    | ChunkTerminator => rw [hk] at hw; simp [TokenKind.is_word] at hw

/-- Every position from `iter_word_indices` holds a word-kind token. -/
theorem word_indices_are_words {s : List Token} :
    ∀ i ∈ iter_p_indices TokenKind.is_word s, TokenKind.is_word ((s.getD i default).kind) :=
  fun _ hi => (mem_iter_p_indices.mp hi).2

/-- `foldl min` is bounded by its initial accumulator. -/
theorem foldl_min_le_self (l : List Nat) (a : Nat) : l.foldl min a ≤ a := by
  induction l generalizing a with
  | nil => exact Nat.le_refl a
  | cons b t ih => exact Nat.le_trans (ih (min a b)) (Nat.min_le_left a b)

/-- `foldl min` is bounded by every member. -/
theorem foldl_min_le_mem {l : List Nat} {x : Nat} (h : x ∈ l) (a : Nat) :
    l.foldl min a ≤ x := by
  induction l generalizing a with
  | nil => simp at h
  | cons b t ih =>
    rcases List.mem_cons.mp h with rfl | hx
    · exact Nat.le_trans (foldl_min_le_self t (min a x)) (Nat.min_le_right a x)
    · exact ih hx (min a b)

/-- `foldl min` is attained: it is the accumulator or some member. -/
theorem foldl_min_mem (l : List Nat) (a : Nat) :
    l.foldl min a = a ∨ l.foldl min a ∈ l := by
  induction l generalizing a with
  | nil => exact Or.inl rfl
  | cons b t ih =>
    rcases ih (min a b) with heq | hmem
    · rcases Nat.le_total a b with hab | hba
      · left
        rw [List.foldl_cons, heq, Nat.min_eq_left hab]
      · right
        rw [List.foldl_cons, heq, Nat.min_eq_right hba]
        exact List.mem_cons_self _ _
    · right
      exact List.mem_cons_of_mem _ hmem

/-- `foldl max` dominates its initial accumulator. -/
theorem le_foldl_max_self (l : List Nat) (a : Nat) : a ≤ l.foldl max a := by
  induction l generalizing a with
  | nil => exact Nat.le_refl a
  | cons b t ih => exact Nat.le_trans (Nat.le_max_left a b) (ih (max a b))

/-- `foldl max` dominates every member. -/
theorem le_foldl_max_mem {l : List Nat} {x : Nat} (h : x ∈ l) (a : Nat) :
    x ≤ l.foldl max a := by
  induction l generalizing a with
  | nil => simp at h
  | cons b t ih =>
    rcases List.mem_cons.mp h with rfl | hx
    · exact Nat.le_trans (Nat.le_max_right a x) (le_foldl_max_self t (max a x))
    · exact ih hx (max a b)

/-- `foldl max` is attained: it is the accumulator or some member. -/
theorem foldl_max_mem (l : List Nat) (a : Nat) :
    l.foldl max a = a ∨ l.foldl max a ∈ l := by
  induction l generalizing a with
  | nil => exact Or.inl rfl
  | cons b t ih =>
    rcases ih (max a b) with heq | hmem
    · rcases Nat.le_total a b with hab | hba
      · right
        rw [List.foldl_cons, heq, Nat.max_eq_right hab]
        exact List.mem_cons_self _ _
      · left
        rw [List.foldl_cons, heq, Nat.max_eq_left hba]
    · right
      exact List.mem_cons_of_mem _ hmem

/-- Membership in the flattened list of span endpoints. -/
theorem mem_vals_iff {s : List Token} {x : Nat} :
    x ∈ s.flatMap (fun v => [v.span.start, v.span.end_])
      ↔ ∃ t ∈ s, x = t.span.start ∨ x = t.span.end_ := by
  simp [List.mem_flatMap]

/-!  The claims. -/

/-- Claim C1: for every token sequence `S` and each of the three segmentations
(`iter_chunks`, `iter_sentences`, `iter_paragraphs`), the emitted units are
non-overlapping contiguous sub-slices of `S` whose in-order concatenation
reproduces `S` exactly — no tokens lost, duplicated, or reordered. -/
theorem claim_c1 (s : List Token) :
    (iter_chunks s).flatten = s ∧ (iter_sentences s).flatten = s
      ∧ (iter_paragraphs s).flatten = s :=
  ⟨iter_units_flatten _ s, iter_units_flatten _ s, iter_units_flatten _ s⟩

/-- Claim C2 counterexample: on the empty sequence `iter_chunks` does not
yield zero units — it yields one unit (the empty slice), because the
`last_chunk_terminator_index` branch falls back to `Some(self)`. -/
theorem claim_c2_counterexample : iter_chunks ([] : List Token) ≠ [] := by
  decide

/-- Claim C2 (amended): for the empty token sequence, `iter_chunks`,
`iter_sentences` and `iter_paragraphs` each yield exactly one unit — the
empty slice — and every classification query returns none or an empty
sequence. -/
theorem claim_c2 :
    iter_chunks ([] : List Token) = [[]] ∧ iter_sentences ([] : List Token) = [[]]
      ∧ iter_paragraphs ([] : List Token) = [[]]
      ∧ (∀ p : TokenKind → Bool, first_p p [] = none ∧ last_p p [] = none
          ∧ last_p_index p [] = none ∧ iter_p_indices p [] = [] ∧ iter_p p [] = [])
      ∧ first_sentence_word [] = none ∧ span [] = none
      ∧ iter_linking_verb_indices [] = some [] ∧ iter_linking_verbs [] = some [] :=
  ⟨rfl, rfl, rfl, fun _ => ⟨rfl, rfl, rfl, rfl, rfl⟩, rfl, rfl, rfl, rfl⟩

/-- Claim C3 counterexample: on a single token whose span is `[0, 3)`,
`span()` returns that token's own span `⟨0, 3⟩`, not a zero-length span at
its start — the `OneElement` branch is unreachable because every token
contributes two endpoints to the flattened list. -/
theorem claim_c3_counterexample :
    span [tokWord] = some ⟨0, 3⟩ ∧ span [tokWord] ≠ some ⟨0, 0⟩ := by
  decide

/-- Claim C3 (amended): `span()` returns none exactly when `S` is empty;
otherwise it returns the span from the minimum over all tokens' span
starts/ends to the maximum over all tokens' span starts/ends (for a single
token this is that token's own span, which is zero-length only when its
start equals its end). -/
theorem claim_c3 (s : List Token) :
    (span s = none ↔ s = [])
      ∧ (s ≠ [] → ∃ sp, span s = some sp
          ∧ (∀ t ∈ s, sp.start ≤ t.span.start ∧ sp.start ≤ t.span.end_
              ∧ t.span.start ≤ sp.end_ ∧ t.span.end_ ≤ sp.end_)
          ∧ (∃ t ∈ s, sp.start = t.span.start ∨ sp.start = t.span.end_)
          ∧ (∃ t ∈ s, sp.end_ = t.span.start ∨ sp.end_ = t.span.end_)) := by
  cases s with
  | nil =>
    constructor
    · simp [span]
    · intro hne
      exact absurd rfl hne
  | cons t ts =>
    have hvals : (t :: ts).flatMap (fun v => [v.span.start, v.span.end_])
        = t.span.start :: t.span.end_ :: ts.flatMap (fun v => [v.span.start, v.span.end_]) := by
      simp
    have hspan : span (t :: ts)
        = some ⟨(t.span.end_ :: ts.flatMap (fun v => [v.span.start, v.span.end_])).foldl
              min t.span.start,
            (t.span.end_ :: ts.flatMap (fun v => [v.span.start, v.span.end_])).foldl
              max t.span.start⟩ := rfl
    constructor
    · rw [hspan]
      simp
    · intro _
      refine ⟨_, hspan, ?_, ?_, ?_⟩
      · intro t' ht'
        have hminle : ∀ x ∈ (t :: ts).flatMap (fun v => [v.span.start, v.span.end_]),
            (t.span.end_ :: ts.flatMap (fun v => [v.span.start, v.span.end_])).foldl
              min t.span.start ≤ x := by
          intro x hx
          rw [hvals] at hx
          rcases List.mem_cons.mp hx with rfl | hx2
          · exact foldl_min_le_self _ _
          · exact foldl_min_le_mem hx2 _
        have hmaxge : ∀ x ∈ (t :: ts).flatMap (fun v => [v.span.start, v.span.end_]),
            x ≤ (t.span.end_ :: ts.flatMap (fun v => [v.span.start, v.span.end_])).foldl
              max t.span.start := by
          intro x hx
          rw [hvals] at hx
          rcases List.mem_cons.mp hx with rfl | hx2
          · exact le_foldl_max_self _ _
          · exact le_foldl_max_mem hx2 _
        have hs1 : t'.span.start ∈ (t :: ts).flatMap (fun v => [v.span.start, v.span.end_]) :=
          mem_vals_iff.mpr ⟨t', ht', Or.inl rfl⟩
        have hs2 : t'.span.end_ ∈ (t :: ts).flatMap (fun v => [v.span.start, v.span.end_]) :=
          mem_vals_iff.mpr ⟨t', ht', Or.inr rfl⟩
        exact ⟨hminle _ hs1, hminle _ hs2, hmaxge _ hs1, hmaxge _ hs2⟩
      · rcases foldl_min_mem
            (t.span.end_ :: ts.flatMap (fun v => [v.span.start, v.span.end_]))
            t.span.start with heq | hmem
        · refine mem_vals_iff.mp ?_
          rw [heq, hvals]
          exact List.mem_cons_self _ _
        · refine mem_vals_iff.mp ?_
          rw [hvals]
          exact List.mem_cons_of_mem _ hmem
      · rcases foldl_max_mem
            (t.span.end_ :: ts.flatMap (fun v => [v.span.start, v.span.end_]))
            t.span.start with heq | hmem
        · refine mem_vals_iff.mp ?_
          rw [heq, hvals]
          exact List.mem_cons_self _ _
        · refine mem_vals_iff.mp ?_
          rw [hvals]
          exact List.mem_cons_of_mem _ hmem

/-- Claim C3 witness: the amended statement instantiated on a concrete
nonempty input. -/
theorem claim_c3_witness :
    ∃ sp, span [tokWord, tokSpace] = some sp
      ∧ (∀ t ∈ [tokWord, tokSpace], sp.start ≤ t.span.start ∧ sp.start ≤ t.span.end_
          ∧ t.span.start ≤ sp.end_ ∧ t.span.end_ ≤ sp.end_)
      ∧ (∃ t ∈ [tokWord, tokSpace], sp.start = t.span.start ∨ sp.start = t.span.end_)
      ∧ (∃ t ∈ [tokWord, tokSpace], sp.end_ = t.span.start ∨ sp.end_ = t.span.end_) :=
  (claim_c3 [tokWord, tokSpace]).2 (by decide)

/-- Claim C4: for every kind predicate `p`, `last_p_index` returns none when
no token matches, and otherwise returns exactly the forward index `j` of the
last matching token (the reverse scan at reverse-position `i` yields
`j = n - i - 1`). -/
theorem claim_c4 (p : TokenKind → Bool) (s : List Token) :
    ((∀ t ∈ s, ¬ p t.kind) → last_p_index p s = none)
      ∧ (∀ j, j < s.length → p ((s.getD j default).kind) →
          (∀ i, j < i → i < s.length → ¬ p ((s.getD i default).kind)) →
          last_p_index p s = some j) := by
  constructor
  · exact last_p_index_eq_none_iff.mpr
  · intro j hj hpj hafter
    exact last_p_index_eq_some_iff.mpr ⟨hj, hpj, hafter⟩

/-- Claim C4 witness: the last word of a concrete four-token sequence sits at
forward index 2 and `last_p_index` returns exactly 2. -/
theorem claim_c4_witness :
    last_p_index TokenKind.is_word [tokWord, tokSpace, tokLink, tokSpace] = some 2 :=
  (claim_c4 TokenKind.is_word [tokWord, tokSpace, tokLink, tokSpace]).2 2
    (by decide) (by decide)
    (by
      intro i h1 h2
      have hlen : [tokWord, tokSpace, tokLink, tokSpace].length = 4 := rfl
      rw [hlen] at h2
      have h3 : i = 3 := by omega
      subst h3
      decide)

/-- Claim C5: `first_sentence_word` returns the first word-kind token when no
unlintable token sits at or before that word's position, and none when some
unlintable token does, or when no word-kind token exists at all. -/
theorem claim_c5 (s : List Token) :
    ((∀ t ∈ s, ¬ t.kind.is_word) → first_sentence_word s = none)
      ∧ (∀ j, j < s.length → ((s.getD j default).kind.is_word) →
          (∀ i, i < j → ¬ (s.getD i default).kind.is_word) →
          (((∀ i, i ≤ j → i < s.length → ¬ (s.getD i default).kind.is_unlintable) →
              first_sentence_word s = some (s.getD j default))
            ∧ ((∃ i, i ≤ j ∧ i < s.length ∧ (s.getD i default).kind.is_unlintable) →
              first_sentence_word s = none))) := by
  constructor
  · intro h
    have hw : s.findIdx? (fun v => v.kind.is_word) = none := by
      rw [List.findIdx?_eq_none_iff]
      intro x hx
      simpa using h x hx
    unfold first_sentence_word
    rw [hw]
  · intro j hj hpj hbefore
    have hw : s.findIdx? (fun v => v.kind.is_word) = some j := by
      rw [List.findIdx?_eq_some_iff_getElem]
      refine ⟨hj, by rw [← List.getD_eq_getElem _ _ hj]; simpa using hpj, ?_⟩
      intro i hi
      have := hbefore i hi
      rw [List.getD_eq_getElem _ _ (by omega)] at this
      simpa using this
    constructor
    · intro hnone
      have hu : s.findIdx? (fun v => v.kind.is_unlintable) = none
          ∨ ∃ u, s.findIdx? (fun v => v.kind.is_unlintable) = some u ∧ j < u := by
        cases hfind : s.findIdx? (fun v => v.kind.is_unlintable) with
        | none => exact Or.inl rfl
        | some u =>
          refine Or.inr ⟨u, rfl, ?_⟩
          obtain ⟨hu1, hu2, -⟩ := List.findIdx?_eq_some_iff_getElem.mp hfind
          by_contra hle
          have := hnone u (by omega) hu1
          rw [List.getD_eq_getElem _ _ hu1] at this
          exact this (by simpa using hu2)
      unfold first_sentence_word
      rw [hw]
      rcases hu with hu | ⟨u, hu, hju⟩
      · rw [hu]
      · rw [hu]
        show (if j < u then some (s.getD j default) else none) = some (s.getD j default)
        rw [if_pos hju]
    · rintro ⟨i, hij, hilen, hiun⟩
      have hsome : ∃ u, s.findIdx? (fun v => v.kind.is_unlintable) = some u ∧ u ≤ j := by
        cases hfind : s.findIdx? (fun v => v.kind.is_unlintable) with
        | none =>
          rw [List.findIdx?_eq_none_iff] at hfind
          have := hfind _ (getD_mem_tok hilen)
          rw [hiun] at this
          simp at this
        | some u =>
          refine ⟨u, rfl, ?_⟩
          obtain ⟨hu1, hu2, hu3⟩ := List.findIdx?_eq_some_iff_getElem.mp hfind
          by_contra hgt
          have hiu : i < u := by omega
          have := hu3 i hiu
          rw [← List.getD_eq_getElem _ _ hilen] at this
          rw [hiun] at this
          simp at this
      obtain ⟨u, hu, huj⟩ := hsome
      unfold first_sentence_word
      rw [hw, hu]
      show (if j < u then some (s.getD j default) else none) = none
      rw [if_neg (by omega)]

/-- Claim C5 witness: a sequence headed by an unlintable token yields none; a
sequence headed directly by a word yields that word. -/
theorem claim_c5_witness :
    first_sentence_word [tokCode, tokSpace, tokWord] = none
      ∧ first_sentence_word [tokWord, tokSpace] = some tokWord := by
  constructor
  · exact ((claim_c5 [tokCode, tokSpace, tokWord]).2 2 (by decide) (by decide)
      (by decide)).2 ⟨0, by decide, by decide, by decide⟩
  · exact ((claim_c5 [tokWord, tokSpace]).2 0 (by decide) (by decide)
      (by decide)).1 (by decide)

/-- Claim C6: in each of the three segmentations a terminator token occurs
only at the final position of its unit — it closes the unit it ends and never
starts the next one — and since the units concatenate back to `S` exactly, no
boundary token is shared between two units. -/
theorem claim_c6 (s : List Token) :
    ((∀ u ∈ iter_chunks s, ∀ j, j < u.length →
        TokenKind.is_chunk_terminator ((u.getD j default).kind) → j + 1 = u.length)
      ∧ (iter_chunks s).flatten = s)
      ∧ ((∀ u ∈ iter_sentences s, ∀ j, j < u.length →
        TokenKind.is_sentence_terminator ((u.getD j default).kind) → j + 1 = u.length)
      ∧ (iter_sentences s).flatten = s)
      ∧ ((∀ u ∈ iter_paragraphs s, ∀ j, j < u.length →
        TokenKind.is_paragraph_break ((u.getD j default).kind) → j + 1 = u.length)
      ∧ (iter_paragraphs s).flatten = s) :=
  ⟨⟨iter_units_term_last _ s, iter_units_flatten _ s⟩,
    ⟨iter_units_term_last _ s, iter_units_flatten _ s⟩,
    ⟨iter_units_term_last _ s, iter_units_flatten _ s⟩⟩

/-- Claim C6 witness: in the chunking of a concrete word-comma sequence, the
comma found at position 1 of its unit is that unit's final element. -/
theorem claim_c6_witness : (1 : Nat) + 1 = [tokWord, tokComma].length :=
  (claim_c6 [tokWord, tokComma]).1.1 [tokWord, tokComma] (by decide) 1
    (by decide) (by decide)

/-- Claim C7: a nonempty sequence with zero terminator tokens segments into
exactly one unit, the whole sequence, for each of the three segmentations. -/
theorem claim_c7 (s : List Token) (_hne : s ≠ []) :
    ((∀ t ∈ s, ¬ TokenKind.is_chunk_terminator t.kind) → iter_chunks s = [s])
      ∧ ((∀ t ∈ s, ¬ TokenKind.is_sentence_terminator t.kind) → iter_sentences s = [s])
      ∧ ((∀ t ∈ s, ¬ TokenKind.is_paragraph_break t.kind) → iter_paragraphs s = [s]) :=
  ⟨fun h => iter_units_no_term _ s h, fun h => iter_units_no_term _ s h,
    fun h => iter_units_no_term _ s h⟩

/-- Claim C7 witness: the chunking of a concrete terminator-free sequence is
that sequence as its sole unit. -/
theorem claim_c7_witness : iter_chunks [tokWord, tokSpace] = [[tokWord, tokSpace]] :=
  (claim_c7 [tokWord, tokSpace] (by decide)).1 (by decide)

/-- Claim C8: when two consecutive positions `a` and `a + 1` both satisfy the
terminator predicate, the segmentation emits — right after the unit that ends
with `S[a]` — a unit consisting of exactly the single token `S[a + 1]`. -/
theorem claim_c8 (s : List Token) (a : Nat) (h1 : a + 1 < s.length) :
    (TokenKind.is_chunk_terminator ((s.getD a default).kind) →
      TokenKind.is_chunk_terminator ((s.getD (a + 1) default).kind) →
      ∃ k, 1 ≤ k ∧ k < (iter_chunks s).length ∧
        (iter_chunks s).getD k [] = [s.getD (a + 1) default] ∧
        ((iter_chunks s).getD (k - 1) []).getLast? = some (s.getD a default))
      ∧ (TokenKind.is_sentence_terminator ((s.getD a default).kind) →
        TokenKind.is_sentence_terminator ((s.getD (a + 1) default).kind) →
        ∃ k, 1 ≤ k ∧ k < (iter_sentences s).length ∧
          (iter_sentences s).getD k [] = [s.getD (a + 1) default] ∧
          ((iter_sentences s).getD (k - 1) []).getLast? = some (s.getD a default))
      ∧ (TokenKind.is_paragraph_break ((s.getD a default).kind) →
        TokenKind.is_paragraph_break ((s.getD (a + 1) default).kind) →
        ∃ k, 1 ≤ k ∧ k < (iter_paragraphs s).length ∧
          (iter_paragraphs s).getD k [] = [s.getD (a + 1) default] ∧
          ((iter_paragraphs s).getD (k - 1) []).getLast? = some (s.getD a default)) :=
  ⟨fun h2 h3 => iter_units_adjacent _ s h1 h2 h3,
    fun h2 h3 => iter_units_adjacent _ s h1 h2 h3,
    fun h2 h3 => iter_units_adjacent _ s h1 h2 h3⟩

/-- Claim C8 witness: two adjacent chunk terminators on concrete input produce
a singleton unit holding the second terminator, right after the unit closed by
the first. -/
theorem claim_c8_witness :
    ∃ k, 1 ≤ k ∧ k < (iter_chunks [tokWord, tokComma, tokComma]).length ∧
      (iter_chunks [tokWord, tokComma, tokComma]).getD k []
          = [[tokWord, tokComma, tokComma].getD 2 default] ∧
      ((iter_chunks [tokWord, tokComma, tokComma]).getD (k - 1) []).getLast?
          = some ([tokWord, tokComma, tokComma].getD 1 default) :=
  (claim_c8 [tokWord, tokComma, tokComma] 1 (by decide)).1 (by decide) (by decide)

/-- Claim C9: when every position produced by the word-index iterator holds a
word-kind token, the linking-verb iterators never hit their fatal branch and
yield exactly the word indices (respectively tokens) flagged as linking
verbs. -/
theorem claim_c9 (s : List Token)
    (h : ∀ i ∈ iter_p_indices TokenKind.is_word s,
      TokenKind.is_word ((s.getD i default).kind)) :
    iter_linking_verb_indices s
        = some ((iter_p_indices TokenKind.is_word s).filter
            (fun i => is_linking_verb_token (s.getD i default)))
      ∧ iter_linking_verbs s
        = some (((iter_p_indices TokenKind.is_word s).filter
            (fun i => is_linking_verb_token (s.getD i default))).map
              (fun i => s.getD i default)) := by
  have hfilter := linking_verb_filter_words (s := s) h
  constructor
  · exact hfilter
  · unfold iter_linking_verbs iter_linking_verb_indices
    unfold iter_linking_verb_indices at hfilter
    rw [hfilter]
    rfl

/-- Claim C9 witness: on a concrete sequence with one linking verb at index 2,
the iterators return that index and token without failing. -/
theorem claim_c9_witness :
    iter_linking_verb_indices [tokWord, tokSpace, tokLink] = some [2]
      ∧ iter_linking_verbs [tokWord, tokSpace, tokLink] = some [tokLink] := by
  have h := claim_c9 [tokWord, tokSpace, tokLink] (by decide)
  exact ⟨h.1.trans (by decide), h.2.trans (by decide)⟩

/-- Claim C10: the differently-implemented queries of one kind predicate
agree: `last_p` is `last_p_index` followed by indexing, `first_p` is the head
of `iter_p`, and `iter_p` indexes exactly the positions of
`iter_p_indices` in order. -/
theorem claim_c10 (p : TokenKind → Bool) (s : List Token) :
    last_p p s = (last_p_index p s).map (fun i => s.getD i default)
      ∧ first_p p s = (iter_p p s).head?
      ∧ iter_p p s = (iter_p_indices p s).map (fun i => s.getD i default) := by
  refine ⟨?_, ?_, rfl⟩
  · unfold last_p last_p_index
    rw [find?_eq_findIdx?_getD]
    cases hf : s.reverse.findIdx? (fun v => p v.kind) with
    | none => rfl
    | some i =>
      simp only [Option.map_some']
      obtain ⟨hi, -, -⟩ := List.findIdx?_eq_some_iff_getElem.mp hf
      have hi' : i < s.length := by simpa using hi
      rw [getD_reverse_eq hi']
      congr 2
      omega
  · unfold first_p
    rw [find?_eq_findIdx?_getD, findIdx?_eq_head_iter_p_indices]
    unfold iter_p
    rw [List.head?_map]

end Harper
